import Mathlib

/-
Shallow embedding of the recurrence evaluators defined in
posts/dynamic_systems_unlimited_memory/dynamic_systems_unlimited_memory.ipynb.

Numeric values are modelled exactly over ℚ.  Python lists become `List ℚ`,
the histogram dict becomes an association list `List (ℚ × ℚ)` of
key/weight pairs, and operations that can raise a Python exception
(indexing `x[0]` on an empty list, `dict[key]` on a missing key) return
`Option`.
-/

/-- Loop body of `exponential_average`.  The Python loop is
`for p in range(len(x) - 1): x_p = x[p]; h_p = alpha*h[-1] + (1-alpha)*x_p;
h.append(h_p)`; carrying the last hidden state `h` it consumes the list of
samples `x[0], ..., x[len(x)-2]` (note: the code reads `x[p]`, not
`x[p+1]`). -/
def expAveLoop (alpha h : ℚ) : List ℚ → List ℚ
  | [] => []
  | xp :: rest =>
    let h2 := alpha * h + (1 - alpha) * xp
    h2 :: expAveLoop alpha h2 rest

/-- The notebook's `exponential_average(x, alpha)`: seeds `h = [x[0]]`
(raising on an empty input, modelled as `none`) and then runs the loop
over `x[0..len(x)-2]`, i.e. over `x.dropLast`. -/
def exponential_average (x : List ℚ) (alpha : ℚ) : Option (List ℚ) :=
  match x with
  | [] => none
  | x0 :: _ => some (x0 :: expAveLoop alpha x0 x.dropLast)

/-- Loop body of the running-maximum cell: `for p in range(1, len(x)):
h.append(np.maximum(h[-1], x[p]))`. -/
def maxLoop (h : ℚ) : List ℚ → List ℚ
  | [] => []
  | xp :: rest =>
    let h2 := max h xp
    h2 :: maxLoop h2 rest

/-- The running-maximum driver: seeds `h = [x[0]]` (none on empty input)
and folds `np.maximum` over the remaining samples. -/
def running_maximum (x : List ℚ) : Option (List ℚ) :=
  match x with
  | [] => none
  | x0 :: rest => some (x0 :: maxLoop x0 rest)

/-- The notebook's `zero_cross_counter(x_t, x_t_minus_1)`: returns 1 when
`(x_t_minus_1 >= 0 and x_t <= 0) or (x_t_minus_1 <= 0 and x_t >= 0)`,
else 0. -/
def zero_cross_counter (x_t x_t_minus_1 : ℚ) : ℚ :=
  if (x_t_minus_1 ≥ 0 ∧ x_t ≤ 0) ∨ (x_t_minus_1 ≤ 0 ∧ x_t ≥ 0) then 1 else 0

/-- Loop body of the zero-crossing cell: `for t in range(1, len(x)):
cross = zero_cross_counter(x[t], x[t-1]); h.append(h[-1] + cross)`,
carrying the previous raw sample and the last hidden state. -/
def zeroCrossLoop (prev h : ℚ) : List ℚ → List ℚ
  | [] => []
  | xt :: rest =>
    let h2 := h + zero_cross_counter xt prev
    h2 :: zeroCrossLoop xt h2 rest

/-- The zero-crossing driver: seeds `h = [x[0]]` (none on empty input)
and accumulates the crossing indicator over consecutive pairs. -/
def zero_crossing (x : List ℚ) : Option (List ℚ) :=
  match x with
  | [] => none
  | x0 :: rest => some (x0 :: zeroCrossLoop x0 x0 rest)

/-- Sum of the zero-crossing indicator over all consecutive pairs
`(x_{t-1}, x_t)` of a list; the reference quantity for the accumulated
count. -/
def straddleSum (x : List ℚ) : ℚ :=
  ((x.zip x.tail).map fun pr => zero_cross_counter pr.2 pr.1).sum

/-- Round half to even to an integer, the tie-breaking rule used by
`np.round`. -/
def rhe (q : ℚ) : ℤ :=
  if q - ⌊q⌋ < 1 / 2 then ⌊q⌋
  else if q - ⌊q⌋ > 1 / 2 then ⌊q⌋ + 1
  else if ⌊q⌋ % 2 = 0 then ⌊q⌋ else ⌊q⌋ + 1

/-- The notebook's `np.round(x_t, 1)`: round to one decimal place. -/
def roundTenth (x : ℚ) : ℚ := (rhe (10 * x) : ℚ) / 10

/-- The clamped bin label computed inside `update_histogram`: round to one
decimal (`x_t = np.round(x_t, 1)`), then `if x_t < 0: x_t = 0`, then
`if x_t > 10: x_t = 10`. -/
def clampBin (x : ℚ) : ℚ :=
  let xr := roundTenth x
  let x1 := if xr < 0 then 0 else xr
  if x1 > 10 then 10 else x1

/-- The key list of a histogram state (`h_t.keys()` of the Python dict). -/
def keys (h : List (ℚ × ℚ)) : List ℚ := h.map Prod.fst

/-- Total bin mass of a histogram state (sum of all weights). -/
def wsum (h : List (ℚ × ℚ)) : ℚ := (h.map Prod.snd).sum

/-- The Python statement `h_t[x_t] += alpha`: adds `a` to the weight of
key `k` when the key exists, and raises `KeyError` (modelled as `none`)
otherwise. -/
def addToKey (h : List (ℚ × ℚ)) (k a : ℚ) : Option (List (ℚ × ℚ)) :=
  if k ∈ keys h then
    some (h.map fun kv => if kv.1 = k then (kv.1, kv.2 + a) else kv)
  else none

/-- The notebook's `update_histogram(h_t, x_t, alpha)`: decay every bin
weight by `(1 - alpha)`, round and clamp the sample, then add `alpha` to
that bin. -/
def update_histogram (h_t : List (ℚ × ℚ)) (x_t alpha : ℚ) : Option (List (ℚ × ℚ)) :=
  let h1 := h_t.map fun kv => (kv.1, kv.2 * (1 - alpha))
  addToKey h1 (clampBin x_t) alpha

/-- The bin labels created at initialization:
`bins = np.unique(np.array([np.round(a,1) for a in np.linspace(0,10,10000)]))`.
Over exact arithmetic the points of `linspace(0, 10, 10000)` are spaced
`10/9999 < 1/20` apart, so rounding them to one decimal hits every
multiple of `1/10` in `[0, 10]` and `np.unique` returns exactly the sorted
grid `0.0, 0.1, ..., 10.0`; `binsList` is that grid. -/
def binsList : List ℚ := (List.range 101).map fun k : ℕ => (k : ℚ) / 10

/-- The initial histogram state `h_t = {a: 0 for a in bins}`. -/
def histInit : List (ℚ × ℚ) := binsList.map fun a => (a, 0)

/-- The histogram driver loop: `for x_t in x: h_t = update_histogram(h_t,
x_t, alpha); h_all.append(copy.deepcopy(h_t))`, collecting the successive
states. -/
def histLoop (alpha : ℚ) (h : List (ℚ × ℚ)) : List ℚ → Option (List (List (ℚ × ℚ)))
  | [] => some []
  | xt :: rest =>
    match update_histogram h xt alpha with
    | none => none
    | some h2 => (histLoop alpha h2 rest).map (h2 :: ·)

/-- The histogram driver (`h_all`): starts from `h_all = [copy.deepcopy(h_t)]`
with the freshly initialized state and `alpha = 0.1`, then appends one
updated state per input sample. -/
def histogram_driver (x : List ℚ) : Option (List (List (ℚ × ℚ))) :=
  (histLoop (1 / 10) histInit x).map (histInit :: ·)

/-- Modelled from the spec: the running sum of the first `p` samples
(`x 0` is the sample `x_1`); the running-mean and running-variance
recursions appear in the notebook only as markdown formulas, with no code
cell. -/
def prefixSum (x : ℕ → ℚ) (p : ℕ) : ℚ := ∑ j ∈ Finset.range p, x j

/-- Modelled from the spec: the running mean
`h_ave_p = ((p-1)/p) * h_ave_{p-1} + (1/p) * x_p`, in closed form
`(x_1 + ... + x_p) / p` (the spec derives the recursion from this form). -/
def runMean (x : ℕ → ℚ) (p : ℕ) : ℚ := prefixSum x p / p

/-- The naive population variance `(1/p) * sum_{j=1..p} (x_j - h_ave_p)^2`
of the prefix `x_1 .. x_p`. -/
def naiveVariance (x : ℕ → ℚ) (p : ℕ) : ℚ :=
  (∑ j ∈ Finset.range p, (x j - runMean x p) ^ 2) / p

/-- Modelled from the spec: the running-variance recursion
`h_var_p = ((p-1)/p) * h_var_{p-1} + (1/p) * (x_p - h_ave_p) * (x_p - h_ave_{p-1})`
with `h_var_1 = 0` (the formula itself forces the value 0 at `p = 1`,
since `x_1 - h_ave_1 = 0`). -/
def runVariance (x : ℕ → ℚ) : ℕ → ℚ
  | 0 => 0
  | p + 1 =>
    ((p : ℚ) / ((p : ℚ) + 1)) * runVariance x p
      + (1 / ((p : ℚ) + 1)) * (x p - runMean x (p + 1)) * (x p - runMean x p)

/-- Each pass of the exponential-average loop appends exactly one state. -/
theorem expAveLoop_length (alpha : ℚ) (xs : List ℚ) :
    ∀ h, (expAveLoop alpha h xs).length = xs.length := by
  induction xs with
  | nil => intro h; rfl
  | cons xp rest ih => intro h; simp [expAveLoop, ih]

/-- Each pass of the running-maximum loop appends exactly one state. -/
theorem maxLoop_length (xs : List ℚ) :
    ∀ h, (maxLoop h xs).length = xs.length := by
  induction xs with
  | nil => intro h; rfl
  | cons xp rest ih => intro h; simp [maxLoop, ih]

/-- Each pass of the zero-crossing loop appends exactly one state. -/
theorem zeroCrossLoop_length (xs : List ℚ) :
    ∀ prev h, (zeroCrossLoop prev h xs).length = xs.length := by
  induction xs with
  | nil => intro prev h; rfl
  | cons xt rest ih => intro prev h; simp [zeroCrossLoop, ih]

/-- A one-element list has no consecutive pair, hence indicator sum 0. -/
theorem straddleSum_single (a : ℚ) : straddleSum [a] = 0 := by
  simp [straddleSum]

/-- Peeling the first consecutive pair off the indicator sum. -/
theorem straddleSum_pair (a b : ℚ) (l : List ℚ) :
    straddleSum (a :: b :: l) = zero_cross_counter b a + straddleSum (b :: l) := by
  simp [straddleSum]

/-- The running-maximum loop produces a chain of non-decreasing states
starting from the carried state. -/
theorem maxLoop_chain (xs : List ℚ) :
    ∀ h, List.Chain (· ≤ ·) h (maxLoop h xs) := by
  induction xs with
  | nil => intro h; exact List.Chain.nil
  | cons xp rest ih =>
    intro h
    exact List.Chain.cons (le_max_left h xp) (ih (max h xp))

/-- Entry `i` of the zero-crossing loop output is the carried state plus
the indicator sum over the consecutive pairs of `prev` followed by the
first `i + 1` samples consumed. -/
theorem zeroCrossLoop_get? (xs : List ℚ) :
    ∀ prev h (i : ℕ), i < xs.length →
      (zeroCrossLoop prev h xs).get? i = some (h + straddleSum (prev :: xs.take (i + 1))) := by
  induction xs with
  | nil => intro prev h i hi; simp at hi
  | cons xt rest ih =>
    intro prev h i hi
    cases i with
    | zero =>
      simp [zeroCrossLoop, straddleSum_pair, straddleSum_single]
    | succ j =>
      have hj : j < rest.length := by simpa using hi
      calc (zeroCrossLoop prev h (xt :: rest)).get? (j + 1)
          = (zeroCrossLoop xt (h + zero_cross_counter xt prev) rest).get? j := by
            simp [zeroCrossLoop]
        _ = some (h + zero_cross_counter xt prev + straddleSum (xt :: rest.take (j + 1))) :=
            ih xt (h + zero_cross_counter xt prev) j hj
        _ = some (h + straddleSum (prev :: (xt :: rest).take (j + 1 + 1))) := by
            rw [List.take_succ_cons, straddleSum_pair, add_assoc]


/-- Decaying every weight leaves the key list unchanged. -/
theorem keys_decay (h : List (ℚ × ℚ)) (c : ℚ) :
    keys (h.map fun kv => (kv.1, kv.2 * c)) = keys h := by
  simp [keys, List.map_map]

/-- Decaying every weight by the factor `c` multiplies the total mass by `c`. -/
theorem wsum_decay (h : List (ℚ × ℚ)) (c : ℚ) :
    wsum (h.map fun kv => (kv.1, kv.2 * c)) = wsum h * c := by
  simp only [wsum, List.map_map]
  exact List.sum_map_mul_right h Prod.snd c

/-- Bumping the weight at one key leaves the key list unchanged. -/
theorem keys_bump (h : List (ℚ × ℚ)) (k a : ℚ) :
    keys (h.map fun kv => if kv.1 = k then (kv.1, kv.2 + a) else kv) = keys h := by
  induction h with
  | nil => rfl
  | cons kv rest ih =>
    simp only [keys, List.map_cons] at ih ⊢
    by_cases hk : kv.1 = k <;> simp [hk, ih]

/-- When the key is absent, bumping it changes nothing. -/
theorem bump_not_mem (k a : ℚ) :
    ∀ h : List (ℚ × ℚ), k ∉ keys h →
      h.map (fun kv => if kv.1 = k then (kv.1, kv.2 + a) else kv) = h := by
  intro h
  induction h with
  | nil => intro _; rfl
  | cons kv rest ih =>
    intro hk
    simp only [keys, List.map_cons, List.mem_cons, not_or] at hk
    have h1 : kv.1 ≠ k := fun he => hk.1 he.symm
    rw [List.map_cons, if_neg h1, ih (by simpa [keys] using hk.2)]

/-- Bumping a present key in a duplicate-free state adds exactly `a` to
the total mass. -/
theorem wsum_bump (k a : ℚ) :
    ∀ h : List (ℚ × ℚ), (keys h).Nodup → k ∈ keys h →
      wsum (h.map fun kv => if kv.1 = k then (kv.1, kv.2 + a) else kv) = wsum h + a := by
  intro h
  induction h with
  | nil => intro _ hmem; simp [keys] at hmem
  | cons kv rest ih =>
    intro hnd hmem
    simp only [keys, List.map_cons, List.nodup_cons] at hnd
    by_cases hk : kv.1 = k
    · have hnotin : k ∉ keys rest := by
        rw [← hk]
        simpa [keys] using hnd.1
      rw [List.map_cons, if_pos hk, bump_not_mem k a rest hnotin]
      simp only [wsum, List.map_cons, List.sum_cons]
      ring
    · have hmem2 : k ∈ keys rest := by
        rcases (by simpa [keys] using hmem : k = kv.1 ∨ k ∈ keys rest) with he | hm
        · exact absurd he.symm hk
        · exact hm
      rw [List.map_cons, if_neg hk]
      simp only [wsum, List.map_cons, List.sum_cons]
      have := ih hnd.2 hmem2
      simp only [wsum] at this
      rw [this]
      ring

/-- Adding to an existing key succeeds and returns the bumped state. -/
theorem addToKey_eq_some (h : List (ℚ × ℚ)) (k a : ℚ) (hmem : k ∈ keys h) :
    addToKey h k a = some (h.map fun kv => if kv.1 = k then (kv.1, kv.2 + a) else kv) := by
  simp [addToKey, hmem]

/-- When the clamped bin exists among the keys, `update_histogram`
succeeds and returns decay followed by bump. -/
theorem update_histogram_eq (h : List (ℚ × ℚ)) (x alpha : ℚ)
    (hmem : clampBin x ∈ keys h) :
    update_histogram h x alpha =
      some ((h.map fun kv => (kv.1, kv.2 * (1 - alpha))).map
        fun kv => if kv.1 = clampBin x then (kv.1, kv.2 + alpha) else kv) := by
  simp only [update_histogram]
  rw [addToKey_eq_some]
  rwa [keys_decay]

/-- Every one-decimal grid point `m / 10` with `0 ≤ m ≤ 100` is a bin label. -/
theorem mem_binsList_of_int (m : ℤ) (h0 : 0 ≤ m) (h1 : m ≤ 100) :
    ((m : ℚ) / 10) ∈ binsList := by
  have h2 : ((m.toNat : ℕ) : ℚ) = (m : ℚ) := by
    exact_mod_cast Int.toNat_of_nonneg h0
  have h3 : m.toNat ∈ List.range 101 := List.mem_range.mpr (by omega)
  rw [← h2]
  unfold binsList
  exact List.mem_map_of_mem _ h3

/-- Rounding to one decimal and clamping to `[0, 10]` always lands on a
bin label. -/
theorem clampBin_mem_binsList (x : ℚ) : clampBin x ∈ binsList := by
  simp only [clampBin, roundTenth]
  by_cases hneg : ((rhe (10 * x) : ℤ) : ℚ) / 10 < 0
  · rw [if_pos hneg, if_neg (by norm_num : ¬ ((0 : ℚ) > 10))]
    simpa using mem_binsList_of_int 0 le_rfl (by norm_num)
  · push_neg at hneg
    rw [if_neg (not_lt.mpr hneg)]
    by_cases hbig : ((rhe (10 * x) : ℤ) : ℚ) / 10 > 10
    · rw [if_pos hbig]
      have h100 := mem_binsList_of_int 100 (by norm_num) le_rfl
      norm_num at h100
      exact h100
    · push_neg at hbig
      rw [if_neg (not_lt.mpr hbig)]
      apply mem_binsList_of_int
      · have h0 : (0 : ℚ) ≤ ((rhe (10 * x) : ℤ) : ℚ) := by
          have := (le_div_iff₀ (by norm_num : (0 : ℚ) < 10)).mp hneg
          linarith
        exact_mod_cast h0
      · have h1 : ((rhe (10 * x) : ℤ) : ℚ) ≤ 100 := by
          have := (div_le_iff₀ (by norm_num : (0 : ℚ) < 10)).mp hbig
          linarith
        exact_mod_cast h1

/-- From a state whose keys are the bin labels, one histogram update
succeeds and preserves the key list. -/
theorem update_histogram_keys (h : List (ℚ × ℚ)) (x alpha : ℚ)
    (hk : keys h = binsList) :
    ∃ h2, update_histogram h x alpha = some h2 ∧ keys h2 = keys h := by
  have hmem : clampBin x ∈ keys h := by
    rw [hk]; exact clampBin_mem_binsList x
  refine ⟨_, update_histogram_eq h x alpha hmem, ?_⟩
  rw [keys_bump, keys_decay]

/-- A successful histogram update maps total mass `s` to `s*(1-α) + α`. -/
theorem update_histogram_wsum (h h2 : List (ℚ × ℚ)) (x alpha : ℚ)
    (hnd : (keys h).Nodup) (hup : update_histogram h x alpha = some h2) :
    wsum h2 = wsum h * (1 - alpha) + alpha := by
  simp only [update_histogram, addToKey] at hup
  split at hup
  case isTrue hmem =>
    obtain rfl := Option.some.inj hup
    rw [wsum_bump (clampBin x) alpha _ (by rw [keys_decay]; exact hnd) hmem, wsum_decay]
  case isFalse hmem =>
    exact Option.noConfusion hup

/-- The keys of the freshly initialized histogram are the bin labels. -/
theorem keys_histInit : keys histInit = binsList := by
  unfold keys histInit
  rw [List.map_map]
  have hcomp : (Prod.fst ∘ fun a : ℚ => (a, (0 : ℚ))) = id := rfl
  rw [hcomp, List.map_id]

/-- From any state whose keys are the bin labels, the driver loop
succeeds and appends exactly one state per input sample. -/
theorem histLoop_total (alpha : ℚ) (xs : List ℚ) :
    ∀ h, keys h = binsList →
      ∃ l, histLoop alpha h xs = some l ∧ l.length = xs.length := by
  induction xs with
  | nil => intro h _; exact ⟨[], rfl, rfl⟩
  | cons xt rest ih =>
    intro h hk
    obtain ⟨h2, hu, hk2⟩ := update_histogram_keys h xt alpha hk
    obtain ⟨l, hl, hlen⟩ := ih h2 (by rw [hk2, hk])
    refine ⟨h2 :: l, ?_, by simp [hlen]⟩
    simp only [histLoop]
    rw [hu]
    show (histLoop alpha h2 rest).map (h2 :: ·) = some (h2 :: l)
    rw [hl]
    rfl

/-- Unfolding one step of the running sum. -/
theorem prefixSum_succ (x : ℕ → ℚ) (p : ℕ) :
    prefixSum x (p + 1) = prefixSum x p + x p :=
  Finset.sum_range_succ x p

/-- Expanding the sum of squared deviations about an arbitrary centre. -/
theorem sum_sq_dev (x : ℕ → ℚ) (m : ℚ) :
    ∀ p : ℕ, ∑ j ∈ Finset.range p, (x j - m) ^ 2
      = (∑ j ∈ Finset.range p, x j ^ 2) - 2 * m * prefixSum x p + p * m ^ 2 := by
  intro p
  induction p with
  | zero => simp [prefixSum]
  | succ n ih =>
    rw [Finset.sum_range_succ, ih, Finset.sum_range_succ, prefixSum_succ]
    push_cast
    ring

/-- The coupled running-variance recursion equals the naive population
variance of the consumed prefix, at every prefix length, over exact
rational arithmetic. -/
theorem runVariance_eq_naive (x : ℕ → ℚ) :
    ∀ p : ℕ, runVariance x p = naiveVariance x p := by
  intro p
  induction p with
  | zero => simp [runVariance, naiveVariance]
  | succ n ih =>
    rcases Nat.eq_zero_or_pos n with hn | hn
    · subst hn
      simp only [runVariance, naiveVariance, runMean, prefixSum]
      norm_num [Finset.sum_range_one]
    · have hnQ : (n : ℚ) ≠ 0 := Nat.cast_ne_zero.mpr (Nat.pos_iff_ne_zero.mp hn)
      have hn1Q : ((n : ℚ) + 1) ≠ 0 := by positivity
      simp only [runVariance]
      rw [ih]
      simp only [naiveVariance, runMean]
      rw [sum_sq_dev, sum_sq_dev, Finset.sum_range_succ, prefixSum_succ]
      push_cast
      field_simp
      ring

/-- C1: the claim (and the notebook's own markdown formula) states
`h_p = alpha*h_{p-1} + (1-alpha)*x_p`, combining the input arriving at the
same step.  The code's loop reads `x[p]` while `h[-1]` is already `h_p`,
so on `x = [1, 2]`, `alpha = 1/2` it returns `h_2 = alpha*h_1 +
(1-alpha)*x_1 = 1` instead of the claimed `alpha*h_1 + (1-alpha)*x_2 =
3/2`. -/
theorem c1_exponential_average_uses_previous_input :
    exponential_average [1, 2] (1 / 2) = some [1, 1] ∧
      exponential_average [1, 2] (1 / 2) ≠ some [1, 3 / 2] := by
  constructor <;> norm_num [exponential_average, expAveLoop]

/-- C2: for every input sequence and every step `p`, the coupled
running-variance recursion produces exactly the naive population variance
`(1/p) * sum_{j=1..p} (x_j - mean_p)^2` of the consumed prefix, over exact
rational arithmetic. -/
theorem c2_running_variance_matches_naive (x : ℕ → ℚ) (p : ℕ) :
    runVariance x p = naiveVariance x p :=
  runVariance_eq_naive x p

/-- C3: the zero-crossing indicator returns 1 exactly on pairs straddling
zero under non-strict inequalities and 0 otherwise; two consecutive exact
zeros count as a crossing, and on the 5-point input `[0, 1, -1, 0, 1]`
every consecutive pair contributes an increment of 1, giving the output
`[0, 1, 2, 3, 4]`. -/
theorem c3_zero_cross_counter_straddle :
    (∀ a b : ℚ,
        (zero_cross_counter b a = 1 ↔ ((a ≥ 0 ∧ b ≤ 0) ∨ (a ≤ 0 ∧ b ≥ 0))) ∧
        (zero_cross_counter b a = 0 ↔ ¬((a ≥ 0 ∧ b ≤ 0) ∨ (a ≤ 0 ∧ b ≥ 0)))) ∧
      zero_cross_counter 0 0 = 1 ∧
      zero_crossing [0, 1, -1, 0, 1] = some [0, 1, 2, 3, 4] := by
  refine ⟨?_, ?_, ?_⟩
  · intro a b
    by_cases hc : ((a ≥ 0 ∧ b ≤ 0) ∨ (a ≤ 0 ∧ b ≥ 0)) <;>
      simp [zero_cross_counter, hc]
  · norm_num [zero_cross_counter]
  · norm_num [zero_crossing, zeroCrossLoop, zero_cross_counter]

/-- C4: for every `alpha` in `[0, 1]`, a histogram state with
duplicate-free keys and total mass 1 still has total mass 1 after one
`update_histogram` step (decay by `(1-alpha)` then add `alpha` to exactly
one bin). -/
theorem c4_update_histogram_mass (h h2 : List (ℚ × ℚ)) (x alpha : ℚ)
    (h0 : 0 ≤ alpha) (h1 : alpha ≤ 1)
    (hnd : (keys h).Nodup) (hw : wsum h = 1)
    (hup : update_histogram h x alpha = some h2) :
    wsum h2 = 1 := by
  rw [update_histogram_wsum h h2 x alpha hnd hup, hw]
  ring

/-- Witness for C4 at the concrete one-bin state `[(0, 1)]`, sample 0 and
`alpha = 1/2`. -/
theorem c4_update_histogram_mass_witness :
    (0 : ℚ) ≤ 1 / 2 ∧ (1 : ℚ) / 2 ≤ 1 ∧
      (keys [((0 : ℚ), (1 : ℚ))]).Nodup ∧
      wsum [((0 : ℚ), (1 : ℚ))] = 1 ∧
      update_histogram [((0 : ℚ), (1 : ℚ))] 0 (1 / 2) = some [((0 : ℚ), (1 : ℚ))] ∧
      wsum [((0 : ℚ), (1 : ℚ))] = 1 := by
  have hup : update_histogram [((0 : ℚ), (1 : ℚ))] 0 (1 / 2) = some [((0 : ℚ), (1 : ℚ))] := by
    norm_num [update_histogram, addToKey, clampBin, roundTenth, rhe, keys]
  exact ⟨by norm_num, by norm_num, by simp [keys], by simp [wsum], hup,
    c4_update_histogram_mass _ _ _ _ (by norm_num) (by norm_num)
      (by simp [keys]) (by simp [wsum]) hup⟩

/-- C5 counterexample: the histogram driver prepends the initial state to
`h_all`, so on the one-element input `[5]` it produces 2 states, not 1 —
the output is one longer than the input, contradicting the claim for this
variant. -/
theorem c5_histogram_driver_extra_state :
    (histogram_driver [(5 : ℚ)]).map List.length = some 2 ∧
      (histogram_driver [(5 : ℚ)]).map List.length ≠ some 1 := by
  obtain ⟨l, hl, hlen⟩ := histLoop_total (1 / 10) [(5 : ℚ)] histInit keys_histInit
  constructor
  · simp only [histogram_driver]
    rw [hl]
    simp [hlen]
  · simp only [histogram_driver]
    rw [hl]
    simp [hlen]

/-- C5 (amended): on every non-empty input the scalar evaluators
(exponential average, running maximum, zero-crossing) produce exactly one
hidden state per input element, same order and length; the histogram
driver instead produces `length + 1` states because it also records the
initial histogram before consuming any input. -/
theorem c5_one_state_per_input (x : List ℚ) (alpha : ℚ) (hx : x ≠ []) :
    (∃ hs, exponential_average x alpha = some hs ∧ hs.length = x.length) ∧
      (∃ hs, running_maximum x = some hs ∧ hs.length = x.length) ∧
      (∃ hs, zero_crossing x = some hs ∧ hs.length = x.length) ∧
      (∃ hsH, histogram_driver x = some hsH ∧ hsH.length = x.length + 1) := by
  cases x with
  | nil => exact absurd rfl hx
  | cons x0 rest =>
    refine ⟨⟨_, rfl, ?_⟩, ⟨_, rfl, ?_⟩, ⟨_, rfl, ?_⟩, ?_⟩
    · simp [expAveLoop_length]
    · simp [maxLoop_length]
    · simp [zeroCrossLoop_length]
    · obtain ⟨l, hl, hlen⟩ := histLoop_total (1 / 10) (x0 :: rest) histInit keys_histInit
      refine ⟨histInit :: l, ?_, by simp [hlen]⟩
      simp only [histogram_driver]
      rw [hl]
      rfl

/-- Witness for C5 at the concrete input `[1, 2]` with `alpha = 1/2`. -/
theorem c5_one_state_per_input_witness :
    ([(1 : ℚ), 2] ≠ []) ∧
      ((∃ hs, exponential_average [(1 : ℚ), 2] (1 / 2) = some hs ∧
          hs.length = [(1 : ℚ), 2].length) ∧
        (∃ hs, running_maximum [(1 : ℚ), 2] = some hs ∧
          hs.length = [(1 : ℚ), 2].length) ∧
        (∃ hs, zero_crossing [(1 : ℚ), 2] = some hs ∧
          hs.length = [(1 : ℚ), 2].length) ∧
        (∃ hsH, histogram_driver [(1 : ℚ), 2] = some hsH ∧
          hsH.length = [(1 : ℚ), 2].length + 1)) :=
  ⟨by simp, c5_one_state_per_input [(1 : ℚ), 2] (1 / 2) (by simp)⟩

/-- C6: with `alpha = 1` the code is fully persistent as claimed, but with
`alpha = 0` it is not the claimed memoryless passthrough: on `x = [1, 2]`
it returns `[1, 1]` (each step emits the previous sample), not `[1, 2]`.
The notebook's markdown formula gives the passthrough; the code's
off-by-one contradicts it. -/
theorem c6_alpha_boundary :
    exponential_average [1, 2] 1 = some [1, 1] ∧
      exponential_average [1, 2] 0 = some [1, 1] ∧
      exponential_average [1, 2] 0 ≠ some [1, 2] := by
  refine ⟨?_, ?_, ?_⟩ <;> norm_num [exponential_average, expAveLoop]

/-- C7: the running-maximum output is monotonically non-decreasing:
adjacent produced states satisfy `h_p ≤ h_{p+1}`. -/
theorem c7_running_maximum_monotone (x hs : List ℚ)
    (hrun : running_maximum x = some hs) (i : ℕ)
    (h1 : i < hs.length) (h2 : i + 1 < hs.length) :
    hs.get ⟨i, h1⟩ ≤ hs.get ⟨i + 1, h2⟩ := by
  cases x with
  | nil => exact Option.noConfusion hrun
  | cons x0 rest =>
    have hs_eq : x0 :: maxLoop x0 rest = hs := by
      simpa [running_maximum] using hrun
    subst hs_eq
    have hch : List.Chain' (· ≤ ·) (x0 :: maxLoop x0 rest) := maxLoop_chain rest x0
    exact List.chain'_iff_get.mp hch i (by omega)

/-- Witness for C7 at the concrete input `[2, 1, 3]`. -/
theorem c7_running_maximum_monotone_witness :
    running_maximum [2, 1, 3] = some [2, 2, 3] ∧ (0 : ℕ) < 3 ∧ (0 : ℕ) + 1 < 3 ∧
      ([(2 : ℚ), 2, 3].get ⟨0, by norm_num⟩ ≤ [(2 : ℚ), 2, 3].get ⟨1, by norm_num⟩) := by
  have hrm : running_maximum [2, 1, 3] = some [2, 2, 3] := by
    norm_num [running_maximum, maxLoop]
  exact ⟨hrm, by norm_num, by norm_num,
    c7_running_maximum_monotone [2, 1, 3] [2, 2, 3] hrm 0 (by norm_num) (by norm_num)⟩

/-- C8: the bin set is fixed at initialization over the one-decimal grid
on `[0, 10]`, and an `update_histogram` step from any state carrying that
key set succeeds (rounding then clamping always yields an existing bin
key) and neither adds nor removes a key. -/
theorem c8_histogram_keys_invariant :
    keys histInit = binsList ∧
      ∀ (h : List (ℚ × ℚ)) (x alpha : ℚ), keys h = binsList →
        ∃ h2, update_histogram h x alpha = some h2 ∧ keys h2 = keys h :=
  ⟨keys_histInit, fun h x alpha hk => update_histogram_keys h x alpha hk⟩

/-- Witness for C8 at the freshly initialized state with sample 5 and
`alpha = 1/10`. -/
theorem c8_histogram_keys_invariant_witness :
    keys histInit = binsList ∧
      ∃ h2, update_histogram histInit 5 (1 / 10) = some h2 ∧ keys h2 = keys histInit :=
  ⟨keys_histInit, c8_histogram_keys_invariant.2 histInit 5 (1 / 10) keys_histInit⟩

/-- C9 counterexample: on the empty input the histogram driver does not
fail; it returns the one-element history holding the initial state. -/
theorem c9_histogram_driver_empty_returns :
    histogram_driver [] = some [histInit] ∧ histogram_driver [] ≠ none :=
  ⟨rfl, by simp [histogram_driver, histLoop]⟩

/-- C9 (amended): every scalar evaluator seeded from the first input
(exponential average, running maximum, zero-crossing) fails on the empty
sequence — there is no defined initial state — while the histogram
driver, whose initial state is explicit, returns just that initial
state. -/
theorem c9_empty_input (alpha : ℚ) :
    exponential_average [] alpha = none ∧ running_maximum [] = none ∧
      zero_crossing [] = none ∧ histogram_driver [] = some [histInit] :=
  ⟨rfl, rfl, rfl, rfl⟩

/-- C10: the zero-crossing output is seeded with the raw first sample, so
every produced state is `x_1` plus the number of straddling consecutive
pairs seen so far: `h_p = x_1 + sum_{t=2..p} I(x_{t-1}, x_t)`. -/
theorem c10_zero_crossing_seeded_with_first (x hs : List ℚ)
    (hzc : zero_crossing x = some hs) (i : ℕ) (hi : i < hs.length) :
    hs.get ⟨i, hi⟩ = x.headD 0 + straddleSum (x.take (i + 1)) := by
  cases x with
  | nil => exact Option.noConfusion hzc
  | cons x0 rest =>
    have hs_eq : x0 :: zeroCrossLoop x0 x0 rest = hs := by
      simpa [zero_crossing] using hzc
    subst hs_eq
    cases i with
    | zero => simp [straddleSum_single]
    | succ j =>
      have hj : j < rest.length := by
        have hlen := zeroCrossLoop_length rest x0 x0
        simp only [List.length_cons, hlen] at hi
        omega
      have hjlt : j < (zeroCrossLoop x0 x0 rest).length := by
        rw [zeroCrossLoop_length]; exact hj
      have hget := zeroCrossLoop_get? rest x0 x0 j hj
      rw [List.get?_eq_get hjlt] at hget
      have h4 := Option.some.inj hget
      calc (x0 :: zeroCrossLoop x0 x0 rest).get ⟨j + 1, hi⟩
          = (zeroCrossLoop x0 x0 rest).get ⟨j, hjlt⟩ := rfl
        _ = x0 + straddleSum (x0 :: rest.take (j + 1)) := h4
        _ = (x0 :: rest).headD 0 + straddleSum ((x0 :: rest).take (j + 1 + 1)) := by
            rw [List.take_succ_cons]
            simp

/-- Witness for C10 at the concrete input `[0, 1, -1, 0, 1]`, step 5. -/
theorem c10_zero_crossing_seeded_with_first_witness :
    zero_crossing [0, 1, -1, 0, 1] = some [0, 1, 2, 3, 4] ∧ (4 : ℕ) < 5 ∧
      ([(0 : ℚ), 1, 2, 3, 4].get ⟨4, by norm_num⟩ =
        [(0 : ℚ), 1, -1, 0, 1].headD 0 + straddleSum ([(0 : ℚ), 1, -1, 0, 1].take 5)) := by
  have hzc : zero_crossing [0, 1, -1, 0, 1] = some [0, 1, 2, 3, 4] := by
    norm_num [zero_crossing, zeroCrossLoop, zero_cross_counter]
  refine ⟨hzc, by norm_num, ?_⟩
  exact c10_zero_crossing_seeded_with_first [0, 1, -1, 0, 1] [0, 1, 2, 3, 4] hzc 4 (by norm_num)
